import Mathlib

/-
  Verification of the FASTA sequence library (src/Fasta.hpp) against its
  specification.  Strings of the C++ source are modelled as `List Char`;
  the `std::map` keyed by identifier is modelled as an association list
  kept sorted by the lexicographic byte order, and `std::set` as a sorted
  list of keys.  All definitions are translated directly from the source.
-/

/-- Model of `std::isprint` on an `unsigned char` in the C locale:
    true exactly for byte values 0x20 .. 0x7E. -/
def isPrintable (c : Char) : Bool :=
  32 ≤ c.toNat && c.toNat ≤ 126

/-- Model of `std::isalpha` on an `unsigned char` in the C locale:
    the ranges A-Z and a-z. -/
def isAlphaCpp (c : Char) : Bool :=
  (65 ≤ c.toNat && c.toNat ≤ 90) || (97 ≤ c.toNat && c.toNat ≤ 122)

/-- `FastaSequence::_isValidSequenceCharacter`: alphabetic, `-`, or `*`. -/
def isValidSequenceCharacter (c : Char) : Bool :=
  isAlphaCpp c || c == '-' || c == '*'

/-- Step 2 of identifier normalization, `substr('>' == mIdentifier[0])`:
    drop one character exactly when the first character is `>` (on an
    empty string, `mIdentifier[0]` reads the terminating null, which is
    not `>`, so nothing is dropped). -/
def dropLeadingGt (s : List Char) : List Char :=
  match s with
  | [] => []
  | c :: rest => if c = '>' then rest else c :: rest

/-- `FastaSequence::_normalizeIdentifier`.  The source
    1. erases every non-printable character,
    2. drops a single leading `>` when present,
    3. calls `std::regex_replace` twice intending to trim surrounding
       whitespace — but both return values are discarded, so no
       trimming actually occurs. -/
def normalizeIdentifier (s : List Char) : List Char :=
  dropLeadingGt (s.filter isPrintable)

/-- `FastaSequence::_normalizeSequence`: erase every character failing
    `_isValidSequenceCharacter`. -/
def normalizeSequence (s : List Char) : List Char :=
  s.filter isValidSequenceCharacter

/-- One FASTA record: `class FastaSequence` with its two string members. -/
structure FastaSequence where
  mIdentifier : List Char
  mSequence : List Char
deriving DecidableEq, Repr

/-- The `FastaSequence(identifier, sequence)` constructor: store both
    fields and normalize each. -/
def FastaSequence.mk0 (identifier sequence : List Char) : FastaSequence :=
  { mIdentifier := normalizeIdentifier identifier,
    mSequence := normalizeSequence sequence }

/-- `FastaSequence::setIdentifier`. -/
def FastaSequence.setIdentifier (r : FastaSequence) (identifier : List Char) : FastaSequence :=
  { r with mIdentifier := normalizeIdentifier identifier }

/-- `FastaSequence::setSequence`. -/
def FastaSequence.setSequence (r : FastaSequence) (sequence : List Char) : FastaSequence :=
  { r with mSequence := normalizeSequence sequence }

/-- `FastaSequence::append(char, size_t)`: append `character` `count`
    times, only when `count` is positive and the character passes the
    validity predicate. -/
def FastaSequence.appendChar (r : FastaSequence) (character : Char) (count : Nat) : FastaSequence :=
  if 0 < count ∧ isValidSequenceCharacter character = true then
    { r with mSequence := r.mSequence ++ List.replicate count character }
  else r

/-- `FastaSequence::append(const char*, size_t)`: append up to `count`
    characters, bounded by the string length; the characters are appended
    raw, with no validity check. -/
def FastaSequence.appendStr (r : FastaSequence) (sequence : List Char) (count : Nat) : FastaSequence :=
  if 0 < count then
    { r with mSequence := r.mSequence ++ sequence.take (min count sequence.length) }
  else r

-- Small facts about the normalizers used throughout.

theorem filter_eq_self_of_all {p : Char → Bool} {l : List Char}
    (h : ∀ c ∈ l, p c = true) : l.filter p = l := by
  induction l with
  | nil => rfl
  | cons a l ih =>
    simp only [List.filter_cons, h a (List.mem_cons_self a l)]
    exact congrArg (a :: ·) (ih (fun c hc => h c (List.mem_cons_of_mem a hc)))

theorem mem_dropLeadingGt {c : Char} {s : List Char}
    (h : c ∈ dropLeadingGt s) : c ∈ s := by
  cases s with
  | nil => cases h
  | cons a rest =>
    simp only [dropLeadingGt] at h
    by_cases ha : a = '>'
    · rw [if_pos ha] at h; exact List.mem_cons_of_mem a h
    · rw [if_neg ha] at h; exact h

theorem normalizeIdentifier_printable (s : List Char) :
    ∀ c ∈ normalizeIdentifier s, isPrintable c = true := by
  intro c hc
  unfold normalizeIdentifier at hc
  exact (List.mem_filter.mp (mem_dropLeadingGt hc)).2

theorem normalizeIdentifier_gt_cons {id : List Char}
    (h : ∀ c ∈ id, isPrintable c = true) :
    normalizeIdentifier ('>' :: id) = id := by
  unfold normalizeIdentifier
  have hf : ('>' :: id).filter isPrintable = '>' :: id :=
    filter_eq_self_of_all (by
      intro c hc
      rcases List.mem_cons.mp hc with h1 | h2
      · subst h1; decide
      · exact h c h2)
  rw [hf]
  simp [dropLeadingGt]

theorem normalizeSequence_valid (s : List Char) :
    ∀ c ∈ normalizeSequence s, isValidSequenceCharacter c = true := by
  intro c hc; exact (List.mem_filter.mp hc).2

theorem normalizeSequence_eq_self {s : List Char}
    (h : ∀ c ∈ s, isValidSequenceCharacter c = true) :
    normalizeSequence s = s := filter_eq_self_of_all h

/-- C4: the claim states the normalized identifier never has leading or
    trailing whitespace.  The code is a slip: both `std::regex_replace`
    calls discard their result, so the identifier keeps its surrounding
    whitespace.  Evaluating the embedded normalizer on the input
    `" id "` shows both the leading and the trailing space survive. -/
theorem C4_whitespace_survives_normalization :
    normalizeIdentifier [' ', 'i', 'd', ' '] = [' ', 'i', 'd', ' '] ∧
    (normalizeIdentifier [' ', 'i', 'd', ' ']).head? = some ' ' ∧
    (normalizeIdentifier [' ', 'i', 'd', ' ']).getLast? = some ' ' := by
  decide

/-- C5 counterexample: the claim states the normalized identifier never
    begins with `>`, for all inputs including those beginning with more
    than one `>`.  The source drops only a single leading `>`, so the
    input `">>A"` normalizes to `">A"`, which still begins with `>`. -/
theorem C5_counterexample_double_marker :
    normalizeIdentifier ['>', '>', 'A'] = ['>', 'A'] ∧
    (normalizeIdentifier ['>', '>', 'A']).head? = some '>' := by
  decide

/-- C5 (amended): for every input string the normalized sequence contains
    only alphabetic, `-`, or `*` characters, and the normalized identifier
    contains no non-printable (control) characters; the normalized
    identifier can begin with `>` only when the printable-filtered input
    begins with two `>` markers (exactly one leading marker is dropped). -/
theorem C5_amended_character_filtering (s : List Char) :
    (∀ c ∈ normalizeSequence s, isValidSequenceCharacter c = true) ∧
    (∀ c ∈ normalizeIdentifier s, isPrintable c = true) ∧
    (∀ t : List Char, normalizeIdentifier s = '>' :: t →
      s.filter isPrintable = '>' :: '>' :: t) := by
  refine ⟨normalizeSequence_valid s, normalizeIdentifier_printable s, ?_⟩
  intro t ht
  unfold normalizeIdentifier at ht
  rcases hfs : s.filter isPrintable with _ | ⟨a, rest⟩
  · rw [hfs] at ht; cases ht
  · rw [hfs] at ht
    simp only [dropLeadingGt] at ht
    by_cases ha : a = '>'
    · rw [if_pos ha] at ht
      rw [ha, ht]
    · rw [if_neg ha] at ht
      exact absurd (List.head_eq_of_cons_eq ht) ha

/-- C5 amended, witness at the concrete input `">>A"`: instantiates the
    universally quantified amended statement. -/
theorem C5_amended_character_filtering_instance :
    (∀ c ∈ normalizeSequence ['>', '>', 'A'], isValidSequenceCharacter c = true) ∧
    (∀ c ∈ normalizeIdentifier ['>', '>', 'A'], isPrintable c = true) ∧
    (∀ t : List Char, normalizeIdentifier ['>', '>', 'A'] = '>' :: t →
      (['>', '>', 'A'] : List Char).filter isPrintable = '>' :: '>' :: t) :=
  C5_amended_character_filtering ['>', '>', 'A']

/-- C6 counterexample: the claim states every append path preserves
    sequence validity because each appended run is checked.  The
    `append(const char*, size_t)` overload performs no check: appending
    the digit `1` to a valid record stores the invalid character. -/
theorem C6_counterexample_raw_append :
    ((FastaSequence.mk0 ['A'] ['A']).appendStr ['1'] 1).mSequence = ['A', '1'] ∧
    isValidSequenceCharacter '1' = false := by
  decide

/-- C6 (amended): construction, `setSequence`, and `append(char, count)`
    preserve the sequence-validity invariant (those paths re-filter or
    check the appended character); `append(text, maxCount)` appends raw
    and can break the invariant, as the counterexample shows. -/
theorem C6_amended_validity_preserved (i s t : List Char) (r : FastaSequence)
    (c : Char) (n : Nat)
    (h : ∀ a ∈ r.mSequence, isValidSequenceCharacter a = true) :
    (∀ a ∈ (FastaSequence.mk0 i s).mSequence, isValidSequenceCharacter a = true) ∧
    (∀ a ∈ (r.setSequence t).mSequence, isValidSequenceCharacter a = true) ∧
    (∀ a ∈ (r.appendChar c n).mSequence, isValidSequenceCharacter a = true) := by
  refine ⟨normalizeSequence_valid s, normalizeSequence_valid t, ?_⟩
  intro a ha
  unfold FastaSequence.appendChar at ha
  by_cases hc : 0 < n ∧ isValidSequenceCharacter c = true
  · rw [if_pos hc] at ha
    simp only [] at ha
    rcases List.mem_append.mp ha with h1 | h2
    · exact h a h1
    · rw [List.eq_of_mem_replicate h2]; exact hc.2
  · rw [if_neg hc] at ha
    exact h a ha

/-- C6 amended, witness: the amended preservation statement applied to the
    concrete record with sequence `"AC"`, appending `G` three times. -/
theorem C6_amended_validity_preserved_instance :
    (∀ a ∈ (FastaSequence.mk0 ['i'] ['G', '-']).mSequence, isValidSequenceCharacter a = true) ∧
    (∀ a ∈ ((FastaSequence.mk
        ['x'] ['A', 'C']).setSequence ['T', '*']).mSequence, isValidSequenceCharacter a = true) ∧
    (∀ a ∈ ((FastaSequence.mk
        ['x'] ['A', 'C']).appendChar 'G' 3).mSequence, isValidSequenceCharacter a = true) :=
  C6_amended_validity_preserved ['i'] ['G', '-'] ['T', '*']
    (FastaSequence.mk ['x'] ['A', 'C']) 'G' 3 (by decide)

/-- Lexicographic order on byte strings, modelling `std::string::operator<`
    (identifiers here are printable ASCII, so code-point order coincides
    with byte order). -/
def ltStr : List Char → List Char → Bool
  | [], [] => false
  | [], _ :: _ => true
  | _ :: _, [] => false
  | a :: as, b :: bs => if a = b then ltStr as bs else decide (a.toNat < b.toNat)

/-- `class FastaFile`.  `mIdentifierSequenceMap` models the
    `std::map<std::string, std::vector<FastaSequence>>` as an association
    list sorted by `ltStr`; `mIdentifiersSet` models the
    `std::set<std::string>` as a sorted list of keys.  The dead
    `mIsBareSequence` flag is omitted (never read by the modelled
    operations). -/
structure FastaFile where
  mDuplicateIdentifiersAllowed : Bool
  mIdentifiersSet : List (List Char)
  mIdentifierSequenceMap : List (List Char × List FastaSequence)
deriving DecidableEq, Repr

/-- The `FastaFile()` constructor with an empty filename: an empty
    container with the requested duplicate policy. -/
def FastaFile.empty (allowDuplicates : Bool) : FastaFile :=
  { mDuplicateIdentifiersAllowed := allowDuplicates,
    mIdentifiersSet := [],
    mIdentifierSequenceMap := [] }

/-- `mIdentifierSequenceMap[key].push_back(v)`: `operator[]` creates an
    empty bucket at the ordered position when the key is absent, then
    `push_back` appends at the back of the bucket. -/
def mapPush (m : List (List Char × List FastaSequence)) (k : List Char)
    (v : FastaSequence) : List (List Char × List FastaSequence) :=
  match m with
  | [] => [(k, [v])]
  | (k0, b0) :: rest =>
    if ltStr k k0 then (k, [v]) :: (k0, b0) :: rest
    else if k = k0 then (k0, b0 ++ [v]) :: rest
    else (k0, b0) :: mapPush rest k v

/-- `mIdentifierSequenceMap.find(key)` compared against `end()`:
    `some bucket` when the key is present. -/
def mapFind (m : List (List Char × List FastaSequence)) (k : List Char) :
    Option (List FastaSequence) :=
  match m with
  | [] => none
  | (k0, b0) :: rest => if k = k0 then some b0 else mapFind rest k

/-- `mIdentifiersSet.insert(key)` on the ordered `std::set`. -/
def setInsert (s : List (List Char)) (k : List Char) : List (List Char) :=
  match s with
  | [] => [k]
  | k0 :: rest =>
    if ltStr k k0 then k :: k0 :: rest
    else if k = k0 then k0 :: rest
    else k0 :: setInsert rest k

/-- `FastaFile::addSequences`: with duplicates allowed every sequence is
    appended to its bucket and the vector size is returned; with
    duplicates disallowed a sequence is inserted only when `find` reports
    its identifier absent, and the number actually inserted is counted.
    `addSequence` is the singleton call.  Note that neither branch
    touches `mIdentifiersSet`. -/
def addSeqStepDup (acc : FastaFile) (r : FastaSequence) : FastaFile :=
  { acc with mIdentifierSequenceMap :=
      mapPush acc.mIdentifierSequenceMap r.mIdentifier r }

def addSeqStepNoDup (acc : FastaFile × Nat) (r : FastaSequence) :
    FastaFile × Nat :=
  match mapFind acc.1.mIdentifierSequenceMap r.mIdentifier with
  | some _ => acc
  | none => (addSeqStepDup acc.1 r, acc.2 + 1)

def addSequences (f : FastaFile) (sequences : List FastaSequence) :
    FastaFile × Nat :=
  if f.mDuplicateIdentifiersAllowed then
    (sequences.foldl addSeqStepDup f, sequences.length)
  else
    sequences.foldl addSeqStepNoDup (f, 0)

/-- `std::vector::resize(1)`: keep the first element, or default-construct
    one when the vector is empty (buckets are never empty in reachable
    states, but the embedding keeps the exact semantics). -/
def resizeOne (b : List FastaSequence) : List FastaSequence :=
  match b with
  | [] => [FastaSequence.mk0 [] []]
  | x :: _ => [x]

/-- `FastaFile::allowDuplicateIdentifiers`: store the flag; when the flag
    becomes false, every bucket of the map is resized to one element. -/
def allowDuplicateIdentifiers (f : FastaFile) (allow : Bool) : FastaFile :=
  let f1 : FastaFile := { f with mDuplicateIdentifiersAllowed := allow }
  if allow then f1
  else
    { f1 with mIdentifierSequenceMap :=
        f1.mIdentifierSequenceMap.map (fun kb => (kb.1, resizeOne kb.2)) }

/-- `FastaFile::hasIdentifier`: membership test against `mIdentifiersSet`
    (not against the map keys). -/
def hasIdentifier (f : FastaFile) (identifier : List Char) : Bool :=
  f.mIdentifiersSet.contains identifier

/-- `FastaFile::getIdentifiers`: returns `mIdentifiersSet`. -/
def getIdentifiers (f : FastaFile) : List (List Char) :=
  f.mIdentifiersSet

/-- The flattening traversal from `begin()` to `end()`.  `begin()` starts
    at the first map entry with `mVectorOffset = 0`; `operator*` reads
    `second[mVectorOffset]`; `operator++` advances only the map iterator
    and never changes `mVectorOffset`, so the offset stays fixed while
    the iteration walks the buckets. -/
def collectFrom (off : Nat) : List (List Char × List FastaSequence) →
    List FastaSequence
  | [] => []
  | kb :: rest => kb.2.getD off (FastaSequence.mk0 [] []) :: collectFrom off rest

/-- All records yielded by iterating a `FastaFile` from `begin()` to
    `end()`, in order. -/
def collectTraversal (f : FastaFile) : List FastaSequence :=
  collectFrom 0 f.mIdentifierSequenceMap

/-- Concrete collection for C1: three records inserted with duplicates
    allowed, so bucket `A` holds two records and bucket `B` one. -/
def fC1 : FastaFile :=
  (addSequences (FastaFile.empty true)
    [FastaSequence.mk0 ['A'] ['x'],
     FastaSequence.mk0 ['A'] ['y'],
     FastaSequence.mk0 ['B'] ['z']]).1

/-- C1: the claim states full traversal yields every record of every
    bucket, all records of a bucket before the next bucket.  The code is
    a slip: `operator++` advances the map iterator without ever advancing
    `mVectorOffset`, so a bucket with two records yields only its first.
    Here bucket `A` holds two records, yet traversal yields exactly one
    record of `A` followed by the record of `B`. -/
theorem C1_traversal_skips_bucket_records :
    mapFind fC1.mIdentifierSequenceMap ['A'] =
      some [⟨['A'], ['x']⟩, ⟨['A'], ['y']⟩] ∧
    collectTraversal fC1 = [⟨['A'], ['x']⟩, ⟨['B'], ['z']⟩] := by
  decide

/-- Concrete collection for C3: one record inserted through
    `addSequence` into a fresh container. -/
def fC3 : FastaFile × Nat :=
  addSequences (FastaFile.empty true) [FastaSequence.mk0 ['A'] ['A', 'C', 'G', 'T']]

/-- C3: the claim states that after an insertion reports success,
    `contains` returns true and `identifiers()` includes the identifier.
    The code is a slip: `addSequences` inserts into the map but never
    updates `mIdentifiersSet`, while `hasIdentifier` and `getIdentifiers`
    read only that set (only `readFile` maintains it).  After inserting a
    record with identifier `A` (reported count 1), the bucket exists, yet
    `hasIdentifier` returns false and `getIdentifiers` is empty. -/
theorem C3_contains_ignores_insertions :
    fC3.2 = 1 ∧
    mapFind fC3.1.mIdentifierSequenceMap ['A'] =
      some [⟨['A'], ['A', 'C', 'G', 'T']⟩] ∧
    hasIdentifier fC3.1 ['A'] = false ∧
    getIdentifiers fC3.1 = [] := by
  decide

-- Order facts about `ltStr` used by the map lemmas.

theorem ltStr_irrefl (a : List Char) : ltStr a a = false := by
  induction a with
  | nil => rfl
  | cons c cs ih => simp [ltStr, ih]

theorem ltStr_asymm {a b : List Char} (h : ltStr a b = true) :
    ltStr b a = false := by
  induction a generalizing b with
  | nil =>
    cases b with
    | nil => simp [ltStr] at h
    | cons d ds => simp [ltStr]
  | cons c cs ih =>
    cases b with
    | nil => simp [ltStr] at h
    | cons d ds =>
      by_cases hcd : c = d
      · subst hcd
        simp only [ltStr, if_pos rfl] at h ⊢
        exact ih h
      · simp only [ltStr, if_neg hcd, decide_eq_true_eq] at h
        have hdc : ¬d = c := fun hh => hcd hh.symm
        simp only [ltStr, if_neg hdc, decide_eq_false_iff_not]
        omega

theorem ltStr_ne {a b : List Char} (h : ltStr a b = true) : a ≠ b := by
  intro he; subst he; rw [ltStr_irrefl] at h; cases h

-- Membership facts about `mapPush`.

theorem mapPush_mem_of_find_none {m : List (List Char × List FastaSequence)}
    {k : List Char} {v : FastaSequence} (hf : mapFind m k = none) :
    ∀ kb ∈ mapPush m k v, kb ∈ m ∨ kb = (k, [v]) := by
  induction m with
  | nil =>
    intro kb hkb
    simp only [mapPush] at hkb
    right; simpa using hkb
  | cons e rest ih =>
    obtain ⟨k0, b0⟩ := e
    have hne : k ≠ k0 := by
      intro he
      simp [mapFind, he] at hf
    have hrest : mapFind rest k = none := by
      simpa [mapFind, hne] using hf
    intro kb hkb
    simp only [mapPush] at hkb
    by_cases hlt : ltStr k k0 = true
    · rw [if_pos hlt] at hkb
      rcases List.mem_cons.mp hkb with h1 | h2
      · right; exact h1
      · left; exact h2
    · rw [if_neg hlt, if_neg hne] at hkb
      rcases List.mem_cons.mp hkb with h1 | h2
      · left; rw [h1]; exact List.mem_cons_self _ _
      · rcases ih hrest kb h2 with h3 | h4
        · left; exact List.mem_cons_of_mem _ h3
        · right; exact h4

-- The fold of the duplicate-disallowed insertion branch keeps every
-- bucket at length at most one.

theorem foldl_noDup_buckets_le_one (rs : List FastaSequence) :
    ∀ acc : FastaFile × Nat,
      (∀ kb ∈ acc.1.mIdentifierSequenceMap, kb.2.length ≤ 1) →
      ∀ kb ∈ (rs.foldl addSeqStepNoDup acc).1.mIdentifierSequenceMap,
        kb.2.length ≤ 1 := by
  induction rs with
  | nil => intro acc h kb hkb; exact h kb hkb
  | cons r rs ih =>
    intro acc h
    simp only [List.foldl_cons]
    apply ih
    unfold addSeqStepNoDup
    rcases hfind : mapFind acc.1.mIdentifierSequenceMap r.mIdentifier with _ | b
    · intro kb hkb
      unfold addSeqStepDup at hkb
      simp only [] at hkb
      rcases mapPush_mem_of_find_none hfind kb hkb with h1 | h2
      · exact h kb h1
      · rw [h2]; simp
    · intro kb hkb; exact h kb hkb

/-- C7: setting the duplicate policy to false truncates every
    (non-empty) bucket to exactly its first-inserted record; re-enabling
    duplicates afterwards changes no bucket (the discarded records are
    not restored); and while the flag is false, insertion keeps every
    bucket at length at most one. -/
theorem C7_duplicate_policy_truncation :
    (∀ f : FastaFile, (∀ kb ∈ f.mIdentifierSequenceMap, kb.2 ≠ []) →
      (allowDuplicateIdentifiers f false).mIdentifierSequenceMap
        = f.mIdentifierSequenceMap.map (fun kb => (kb.1, kb.2.take 1))) ∧
    (∀ f : FastaFile,
      (allowDuplicateIdentifiers (allowDuplicateIdentifiers f false) true).mIdentifierSequenceMap
        = (allowDuplicateIdentifiers f false).mIdentifierSequenceMap) ∧
    (∀ (f : FastaFile) (rs : List FastaSequence),
      f.mDuplicateIdentifiersAllowed = false →
      (∀ kb ∈ f.mIdentifierSequenceMap, kb.2.length ≤ 1) →
      ∀ kb ∈ (addSequences f rs).1.mIdentifierSequenceMap, kb.2.length ≤ 1) := by
  refine ⟨?_, ?_, ?_⟩
  · intro f h
    simp only [allowDuplicateIdentifiers, Bool.false_eq_true, if_false]
    apply List.map_congr_left
    intro kb hkb
    rcases hb : kb.2 with _ | ⟨x, xs⟩
    · exact absurd hb (h kb hkb)
    · simp [resizeOne]
  · intro f
    simp [allowDuplicateIdentifiers]
  · intro f rs hflag h
    unfold addSequences
    rw [hflag]
    simp only [Bool.false_eq_true, if_false]
    exact foldl_noDup_buckets_le_one rs (f, 0) h

/-- Concrete collection for the C7 witness: one bucket with three
    records, duplicates allowed. -/
def fC7 : FastaFile :=
  (addSequences (FastaFile.empty true)
    [FastaSequence.mk0 ['A'] ['x'],
     FastaSequence.mk0 ['A'] ['y'],
     FastaSequence.mk0 ['A'] ['z']]).1

/-- Concrete collection with the duplicate flag already false, for the
    C7 witness. -/
def fC7d : FastaFile :=
  { mDuplicateIdentifiersAllowed := false,
    mIdentifiersSet := [],
    mIdentifierSequenceMap := [(['A'], [⟨['A'], ['x']⟩])] }

/-- C7, witness: the truncation, non-restoration, and bounded-bucket
    parts instantiated on concrete collections, each hypothesis
    discharged by evaluation. -/
theorem C7_duplicate_policy_truncation_instance :
    ((allowDuplicateIdentifiers fC7 false).mIdentifierSequenceMap
       = fC7.mIdentifierSequenceMap.map (fun kb => (kb.1, kb.2.take 1))) ∧
    ((allowDuplicateIdentifiers (allowDuplicateIdentifiers fC7 false) true).mIdentifierSequenceMap
       = (allowDuplicateIdentifiers fC7 false).mIdentifierSequenceMap) ∧
    (∀ kb ∈ (addSequences fC7d
        [FastaSequence.mk0 ['A'] ['w'], FastaSequence.mk0 ['B'] ['u']]).1.mIdentifierSequenceMap,
      kb.2.length ≤ 1) :=
  ⟨C7_duplicate_policy_truncation.1 fC7 (by decide),
   C7_duplicate_policy_truncation.2.1 fC7,
   C7_duplicate_policy_truncation.2.2 fC7d
     [FastaSequence.mk0 ['A'] ['w'], FastaSequence.mk0 ['B'] ['u']]
     (by decide) (by decide)⟩

-- ===== The line-oriented codec: `writeFile` and `readFile` =====

/-- Concatenation of a list of lines (no separators: `readFile` appends
    sequence lines verbatim to its accumulation buffer). -/
def joinL : List (List Char) → List Char
  | [] => []
  | l :: ls => l ++ joinL ls

/-- The `writeFile` wrapping loop
    `for (offset = 0; offset < length; offset += lineLength)
       substr(offset, lineLength)`,
    with an explicit fuel bounding the iteration count; a fuel of
    `s.length` suffices whenever the width is at least one, which
    `writeFile` guarantees (a zero width is replaced by `size_t(-1)`). -/
def chunksAux : Nat → Nat → List Char → List (List Char)
  | 0, _, _ => []
  | _ + 1, _, [] => []
  | fuel + 1, w, c :: cs => ((c :: cs).take w) :: chunksAux fuel w ((c :: cs).drop w)

def chunks (w : Nat) (s : List Char) : List (List Char) :=
  chunksAux s.length w s

/-- The lines `writeFile` emits for one record: the header
    `'>' + identifier`, then the sequence wrapped into width-`w` lines. -/
def recordLines (w : Nat) (r : FastaSequence) : List (List Char) :=
  ('>' :: r.mIdentifier) :: chunks w r.mSequence

/-- The lines `writeFile` emits for the records of one bucket, in
    insertion order. -/
def bucketLines (w : Nat) : List FastaSequence → List (List Char)
  | [] => []
  | r :: rs => recordLines w r ++ bucketLines w rs

/-- The lines `writeFile` emits walking the map in key order. -/
def entriesLines (w : Nat) : List (List Char × List FastaSequence) → List (List Char)
  | [] => []
  | kb :: rest => bucketLines w kb.2 ++ entriesLines w rest

/-- `FastaFile::writeFile`, output as the list of emitted lines: a zero
    `lineLength` is replaced by `size_t(-1)` (one unwrapped line). -/
def writeLines (f : FastaFile) (lineLength : Nat) : List (List Char) :=
  entriesLines (if lineLength = 0 then 2 ^ 64 - 1 else lineLength)
    f.mIdentifierSequenceMap

/-- `FastaFile::writeFile` with its result code.  `openOk = false` models
    an output file that cannot be opened or written: the stream writes
    become no-ops, and — since the source never checks the stream — the
    function still returns 0. -/
def writeFileModel (f : FastaFile) (openOk : Bool) (lineLength : Nat) :
    List (List Char) × Int :=
  ((if openOk then writeLines f lineLength else []), 0)

/-- The header test `'>' == line[0]`: on an empty line, `line[0]` reads
    the terminating null, which is not `>`. -/
def headIsGt : List Char → Bool
  | [] => false
  | c :: _ => c == '>'

/-- The two statements finalizing a record inside `readFile`:
    `mIdentifiersSet.insert(identifier)` and
    `mIdentifierSequenceMap[identifier].push_back(sequence)`. -/
def insertRecord (f : FastaFile) (r : FastaSequence) : FastaFile :=
  { f with
      mIdentifiersSet := setInsert f.mIdentifiersSet r.mIdentifier,
      mIdentifierSequenceMap := mapPush f.mIdentifierSequenceMap r.mIdentifier r }

/-- The `while (std::getline(...))` loop of `readFile`.  State: the
    container under construction, the in-progress `FastaSequence`, and
    the accumulation buffer `sequenceString`.  A header line finalizes
    the in-progress record only when its identifier is non-empty, then
    re-targets the record at the new header and clears the buffer; any
    other line is appended verbatim to the buffer. -/
def readLinesLoop : List (List Char) → FastaFile → FastaSequence → List Char →
    FastaFile × FastaSequence × List Char
  | [], f, seq, buf => (f, seq, buf)
  | line :: rest, f, seq, buf =>
    if headIsGt line then
      if 0 < seq.mIdentifier.length then
        let seq2 := seq.setSequence buf
        readLinesLoop rest (insertRecord f seq2) (seq2.setIdentifier line) []
      else
        readLinesLoop rest f (seq.setIdentifier line) []
    else
      readLinesLoop rest f seq (buf ++ line)

/-- `FastaFile::readFile`.  `contents = none` models an input file that
    cannot be opened or read: `getline` fails immediately, so the loop
    body never runs.  After the loop the in-progress record is finalized
    and inserted unconditionally, the duplicate policy is applied once,
    and — the stream never being checked — the function returns 0 in
    every case. -/
def readFileModel (f : FastaFile) (contents : Option (List (List Char)))
    (allowDuplicates : Bool) : FastaFile × Int :=
  let lines := contents.getD []
  let st := readLinesLoop lines f (FastaSequence.mk0 [] []) []
  let seq2 := st.2.1.setSequence st.2.2
  (allowDuplicateIdentifiers (insertRecord st.1 seq2) allowDuplicates, 0)

/-- Parsing a list of lines into a fresh container, as the
    `FastaFile(filename, allowDuplicates)` constructor does through
    `readFile`. -/
def parseLines (lines : List (List Char)) (allowDuplicates : Bool) : FastaFile :=
  (readFileModel (FastaFile.empty true) (some lines) allowDuplicates).1

/-- All records of the map, bucket after bucket in key order. -/
def flattenRecords : List (List Char × List FastaSequence) → List FastaSequence
  | [] => []
  | kb :: rest => kb.2 ++ flattenRecords rest

/-- The (identifier, sequence) pairs of a collection in traversal order:
    buckets in key order, records in insertion order. -/
def flattenPairs (f : FastaFile) : List (List Char × List Char) :=
  (flattenRecords f.mIdentifierSequenceMap).map fun r => (r.mIdentifier, r.mSequence)

/-- C10: parsing an empty input (no lines) does not give an empty
    collection: the unconditional finalization at end of input inserts
    one record with empty identifier and empty sequence. -/
theorem C10_empty_input_yields_empty_record :
    (parseLines [] true).mIdentifierSequenceMap
      = [([], [⟨[], []⟩])] ∧
    (parseLines [] true).mIdentifiersSet = [[]] := by
  decide

/-- C9: the claim states read and write signal an `IOError` result when
    the file cannot be opened.  The code is a slip against its own doc
    comments (`Zero is returned upon success, else an error code is
    returned`): neither function ever checks its stream, both return 0
    unconditionally; an unopenable input even leaves one empty record in
    the container. -/
theorem C9_io_error_never_signaled :
    (readFileModel (FastaFile.empty true) none true).2 = 0 ∧
    (writeFileModel (FastaFile.empty true) false 80).2 = 0 ∧
    (readFileModel (FastaFile.empty true) none true).1.mIdentifierSequenceMap
      = [([], [⟨[], []⟩])] := by
  decide

/-- C8 counterexample: the claim states leading bare sequence lines are
    captured under the empty identifier even when a header follows later.
    They are not: at the header `">B"` the in-progress record has an
    empty identifier, so the finalize-and-insert guard skips, and
    `sequenceString.clear()` discards the accumulated `"AC"`.  The parse
    result holds only the `B` record; no empty-identifier bucket exists. -/
theorem C8_counterexample_leading_lines_discarded :
    (parseLines [['A', 'C'], ['>', 'B'], ['G', 'G']] true).mIdentifierSequenceMap
      = [(['B'], [⟨['B'], ['G', 'G']⟩])] ∧
    mapFind (parseLines [['A', 'C'], ['>', 'B'], ['G', 'G']] true).mIdentifierSequenceMap []
      = none := by
  decide

theorem readLinesLoop_no_header (ls : List (List Char)) :
    ∀ (rest : List (List Char)) (f : FastaFile) (seq : FastaSequence) (buf : List Char),
      (∀ l ∈ ls, headIsGt l = false) →
      readLinesLoop (ls ++ rest) f seq buf
        = readLinesLoop rest f seq (buf ++ joinL ls) := by
  induction ls with
  | nil => intro rest f seq buf h; simp [joinL]
  | cons l ls ih =>
    intro rest f seq buf h
    have hl : headIsGt l = false := h l (List.mem_cons_self _ _)
    simp only [List.cons_append, readLinesLoop, hl, Bool.false_eq_true, if_false,
      List.append_eq]
    rw [ih rest f seq (buf ++ l) (fun x hx => h x (List.mem_cons_of_mem _ hx))]
    simp only [joinL, List.append_assoc]

/-- C8 (amended): when the input consists of bare sequence lines only
    (no header line anywhere), parsing produces exactly one record, with
    empty identifier and with the normalized concatenation of the lines
    as its sequence.  When a header line follows the leading bare lines,
    those lines are discarded, as the counterexample shows. -/
theorem C8_amended_bare_lines (ls : List (List Char))
    (h : ∀ l ∈ ls, headIsGt l = false) :
    (parseLines ls true).mIdentifierSequenceMap
      = [([], [⟨[], normalizeSequence (joinL ls)⟩])] := by
  unfold parseLines readFileModel
  simp only [Option.getD]
  have hloop := readLinesLoop_no_header ls [] (FastaFile.empty true)
    (FastaSequence.mk0 [] []) [] h
  rw [List.append_nil] at hloop
  rw [hloop]
  simp [readLinesLoop, FastaSequence.setSequence, FastaSequence.mk0,
    insertRecord, setInsert, mapPush, allowDuplicateIdentifiers,
    FastaFile.empty, normalizeIdentifier, dropLeadingGt]

/-- C8 amended, witness: a two-line headerless input parses to the single
    empty-identifier record carrying both lines concatenated. -/
theorem C8_amended_bare_lines_instance :
    (parseLines [['A', 'C'], ['G', 'T']] true).mIdentifierSequenceMap
      = [([], [⟨[], normalizeSequence (joinL [['A', 'C'], ['G', 'T']])⟩])] :=
  C8_amended_bare_lines [['A', 'C'], ['G', 'T']] (by decide)

/-- Concrete collection for the C2 counterexample: a record under the
    empty identifier next to a record under `B`. -/
def fC2 : FastaFile :=
  (addSequences (FastaFile.empty true)
    [FastaSequence.mk0 [] ['A', 'C'], FastaSequence.mk0 ['B'] ['T']]).1

/-- C2 counterexample: the claim states write-then-parse restores every
    bucket for any collection and any width at least 1.  It fails when a
    record's identifier is empty: writing emits the header `">"`, which
    parses back to an empty identifier, and at the next header the
    finalize guard (identifier non-empty) discards the record.  The
    round trip loses the empty-identifier bucket entirely. -/
theorem C2_counterexample_empty_identifier :
    flattenPairs fC2 = [([], ['A', 'C']), (['B'], ['T'])] ∧
    flattenPairs (parseLines (writeLines fC2 4) true) = [(['B'], ['T'])] ∧
    flattenPairs (parseLines (writeLines fC2 4) true) ≠ flattenPairs fC2 := by
  decide

-- ===== Round-trip machinery for C2 =====

theorem joinL_chunksAux (w : Nat) (hw : 1 ≤ w) :
    ∀ (fuel : Nat) (s : List Char), s.length ≤ fuel →
      joinL (chunksAux fuel w s) = s := by
  intro fuel
  induction fuel with
  | zero =>
    intro s hs
    have hnil : s = [] := List.length_eq_zero.mp (Nat.le_zero.mp hs)
    subst hnil; rfl
  | succ fuel ih =>
    intro s hs
    cases s with
    | nil => rfl
    | cons c cs =>
      have hlen : ((c :: cs).drop w).length ≤ fuel := by
        rw [List.length_drop]
        simp only [List.length_cons] at hs ⊢
        omega
      simp only [chunksAux, joinL]
      rw [ih _ hlen, List.take_append_drop]

theorem chunksAux_all {p : Char → Bool} :
    ∀ (fuel w : Nat) (s : List Char), (∀ c ∈ s, p c = true) →
      ∀ l ∈ chunksAux fuel w s, ∀ c ∈ l, p c = true := by
  intro fuel
  induction fuel with
  | zero => intro w s _ l hl; cases hl
  | succ fuel ih =>
    intro w s h l hl
    cases s with
    | nil => cases hl
    | cons a as =>
      simp only [chunksAux] at hl
      rcases List.mem_cons.mp hl with h1 | h2
      · intro c hc
        exact h c (List.take_subset w (a :: as) (h1 ▸ hc))
      · exact ih w ((a :: as).drop w)
          (fun c hc => h c (List.drop_subset w (a :: as) hc)) l h2

theorem headIsGt_false_of_valid {l : List Char}
    (h : ∀ c ∈ l, isValidSequenceCharacter c = true) : headIsGt l = false := by
  cases l with
  | nil => rfl
  | cons c cs =>
    by_cases hc : c = '>'
    · subst hc
      exact absurd (h '>' (List.mem_cons_self _ _)) (by decide)
    · simp only [headIsGt]
      exact beq_eq_false_iff_ne.mpr hc

theorem bucketLines_append (w : Nat) (a b : List FastaSequence) :
    bucketLines w (a ++ b) = bucketLines w a ++ bucketLines w b := by
  induction a with
  | nil => rfl
  | cons r rs ih =>
    simp only [List.cons_append, bucketLines, List.append_eq, ih, List.append_assoc]

theorem entriesLines_eq_flatten (w : Nat)
    (es : List (List Char × List FastaSequence)) :
    entriesLines w es = bucketLines w (flattenRecords es) := by
  induction es with
  | nil => rfl
  | cons kb rest ih =>
    simp only [entriesLines, flattenRecords, bucketLines_append, ih]

theorem mem_flattenRecords {r : FastaSequence}
    {es : List (List Char × List FastaSequence)}
    (h : r ∈ flattenRecords es) : ∃ kb ∈ es, r ∈ kb.2 := by
  induction es with
  | nil => cases h
  | cons kb rest ih =>
    simp only [flattenRecords] at h
    rcases List.mem_append.mp h with h1 | h2
    · exact ⟨kb, List.mem_cons_self _ _, h1⟩
    · obtain ⟨kb2, hkb2, hr⟩ := ih h2
      exact ⟨kb2, List.mem_cons_of_mem _ hkb2, hr⟩

/-- A record as it passes through the round trip: non-empty identifier of
    printable characters, sequence of valid characters. -/
def GoodRec (r : FastaSequence) : Prop :=
  r.mIdentifier ≠ [] ∧ (∀ c ∈ r.mIdentifier, isPrintable c = true) ∧
    (∀ c ∈ r.mSequence, isValidSequenceCharacter c = true)

/-- The code that runs after the `getline` loop: assign the accumulated
    buffer to the in-progress record and insert it. -/
def finalizeState (st : FastaFile × FastaSequence × List Char) : FastaFile :=
  insertRecord st.1 (st.2.1.setSequence st.2.2)

theorem readLinesLoop_header_pos (line : List Char) (rest : List (List Char))
    (f : FastaFile) (seq : FastaSequence) (buf : List Char)
    (hl : headIsGt line = true) (hid : seq.mIdentifier ≠ []) :
    readLinesLoop (line :: rest) f seq buf
      = readLinesLoop rest (insertRecord f (seq.setSequence buf))
          ((seq.setSequence buf).setIdentifier line) [] := by
  simp only [readLinesLoop]
  rw [if_pos hl, if_pos (List.length_pos.mpr hid)]

theorem readLinesLoop_header_neg (line : List Char) (rest : List (List Char))
    (f : FastaFile) (seq : FastaSequence) (buf : List Char)
    (hl : headIsGt line = true) (hid : seq.mIdentifier = []) :
    readLinesLoop (line :: rest) f seq buf
      = readLinesLoop rest f (seq.setIdentifier line) [] := by
  simp only [readLinesLoop]
  rw [if_pos hl, if_neg (by simp [hid])]

theorem setIdentifier_gt_mIdentifier (b : FastaSequence) {id : List Char}
    (hpr : ∀ c ∈ id, isPrintable c = true) :
    (b.setIdentifier ('>' :: id)).mIdentifier = id := by
  simp only [FastaSequence.setIdentifier]
  exact normalizeIdentifier_gt_cons hpr

theorem setSequence_setIdentifier_eq (b : FastaSequence) (r : FastaSequence)
    (hpr : ∀ c ∈ r.mIdentifier, isPrintable c = true)
    (hv : ∀ c ∈ r.mSequence, isValidSequenceCharacter c = true) :
    ((b.setIdentifier ('>' :: r.mIdentifier)).setSequence r.mSequence) = r := by
  cases r with
  | mk id sq =>
    simp only [FastaSequence.setIdentifier, FastaSequence.setSequence] at *
    congr 1
    · exact normalizeIdentifier_gt_cons hpr
    · exact normalizeSequence_eq_self hv

/-- The `getline` loop over the serialized blocks of a list of good
    records, started while a record with non-empty identifier is being
    accumulated: it finalizes the current record and then inserts the
    serialized records one after the other. -/
theorem loop_records (w : Nat) (hw : 1 ≤ w) :
    ∀ (rs : List FastaSequence), (∀ r ∈ rs, GoodRec r) →
    ∀ (f : FastaFile) (cur : FastaSequence) (buf : List Char),
      cur.mIdentifier ≠ [] →
      finalizeState (readLinesLoop (bucketLines w rs) f cur buf)
        = rs.foldl insertRecord (insertRecord f (cur.setSequence buf)) := by
  intro rs
  induction rs with
  | nil => intro _ f cur buf _; rfl
  | cons r rs ih =>
    intro hrs f cur buf hcur
    obtain ⟨hid_ne, hid_pr, hseq_v⟩ := hrs r (List.mem_cons_self _ _)
    have hchunks : ∀ l ∈ chunks w r.mSequence, headIsGt l = false := fun l hl =>
      headIsGt_false_of_valid (chunksAux_all _ w r.mSequence hseq_v l hl)
    have hjoin : joinL (chunks w r.mSequence) = r.mSequence :=
      joinL_chunksAux w hw _ r.mSequence (Nat.le_refl _)
    have hbl : bucketLines w (r :: rs)
        = ('>' :: r.mIdentifier) :: (chunks w r.mSequence ++ bucketLines w rs) := by
      simp [bucketLines, recordLines]
    rw [hbl, readLinesLoop_header_pos _ _ _ _ _ (by simp [headIsGt]) hcur,
      readLinesLoop_no_header _ _ _ _ _ hchunks, List.nil_append, hjoin]
    rw [ih (fun x hx => hrs x (List.mem_cons_of_mem _ hx))
      (insertRecord f (cur.setSequence buf))
      ((cur.setSequence buf).setIdentifier ('>' :: r.mIdentifier))
      r.mSequence
      (by rw [setIdentifier_gt_mIdentifier _ hid_pr]; exact hid_ne)]
    rw [setSequence_setIdentifier_eq _ r hid_pr hseq_v, List.foldl_cons]

theorem mapPush_gt_all {m : List (List Char × List FastaSequence)}
    {k : List Char} (h : ∀ kb ∈ m, ltStr kb.1 k = true) (v : FastaSequence) :
    mapPush m k v = m ++ [(k, [v])] := by
  induction m with
  | nil => rfl
  | cons e rest ih =>
    obtain ⟨k0, b0⟩ := e
    have h0 : ltStr k0 k = true := h (k0, b0) (List.mem_cons_self _ _)
    have h1 : ¬ ltStr k k0 = true := by
      rw [ltStr_asymm h0]; exact Bool.false_ne_true
    have h2 : k ≠ k0 := fun he => (ltStr_ne h0) he.symm
    simp only [mapPush, if_neg h1, if_neg h2, List.cons_append]
    rw [ih (fun kb hkb => h kb (List.mem_cons_of_mem _ hkb))]

theorem mapPush_last_bucket {m : List (List Char × List FastaSequence)}
    {k : List Char} (h : ∀ kb ∈ m, ltStr kb.1 k = true)
    (b : List FastaSequence) (v : FastaSequence) :
    mapPush (m ++ [(k, b)]) k v = m ++ [(k, b ++ [v])] := by
  induction m with
  | nil =>
    have h1 : ¬ ltStr k k = true := by
      rw [ltStr_irrefl]; exact Bool.false_ne_true
    simp [List.nil_append, mapPush, h1]
  | cons e rest ih =>
    obtain ⟨k0, b0⟩ := e
    have h0 : ltStr k0 k = true := h (k0, b0) (List.mem_cons_self _ _)
    have h1 : ¬ ltStr k k0 = true := by
      rw [ltStr_asymm h0]; exact Bool.false_ne_true
    have h2 : k ≠ k0 := fun he => (ltStr_ne h0) he.symm
    simp only [List.cons_append, mapPush, if_neg h1, if_neg h2, List.append_eq]
    rw [ih (fun kb hkb => h kb (List.mem_cons_of_mem _ hkb))]

theorem foldl_push_bucket {k : List Char} :
    ∀ (vs : List FastaSequence) (m : List (List Char × List FastaSequence))
      (b : List FastaSequence),
      (∀ kb ∈ m, ltStr kb.1 k = true) →
      (∀ r ∈ vs, r.mIdentifier = k) →
      vs.foldl (fun acc r => mapPush acc r.mIdentifier r) (m ++ [(k, b)])
        = m ++ [(k, b ++ vs)] := by
  intro vs
  induction vs with
  | nil => intro m b _ _; simp
  | cons v vs ih =>
    intro m b hm hv
    have hvk : v.mIdentifier = k := hv v (List.mem_cons_self _ _)
    simp only [List.foldl_cons]
    rw [hvk, mapPush_last_bucket hm]
    rw [ih m (b ++ [v]) hm (fun r hr => hv r (List.mem_cons_of_mem _ hr))]
    rw [List.append_assoc, List.singleton_append]

theorem foldl_push_entries :
    ∀ (es m : List (List Char × List FastaSequence)),
      List.Pairwise (fun a b => ltStr a.1 b.1 = true) es →
      (∀ kb ∈ es, kb.2 ≠ [] ∧ ∀ r ∈ kb.2, r.mIdentifier = kb.1) →
      (∀ kb ∈ m, ∀ ke ∈ es, ltStr kb.1 ke.1 = true) →
      (flattenRecords es).foldl (fun acc r => mapPush acc r.mIdentifier r) m
        = m ++ es := by
  intro es
  induction es with
  | nil => intro m _ _ _; simp [flattenRecords]
  | cons kb rest ih =>
    intro m hpw hgood hlt
    obtain ⟨k, b⟩ := kb
    obtain ⟨hbne, hbid⟩ := hgood (k, b) (List.mem_cons_self _ _)
    have hm_lt_k : ∀ kb2 ∈ m, ltStr kb2.1 k = true := fun kb2 hkb2 =>
      hlt kb2 hkb2 (k, b) (List.mem_cons_self _ _)
    rcases hb : b with _ | ⟨r1, bt⟩
    · exact absurd hb hbne
    · subst hb
      simp only [flattenRecords]
      rw [List.foldl_append]
      have hfirst :
          (r1 :: bt).foldl (fun acc r => mapPush acc r.mIdentifier r) m
            = m ++ [(k, r1 :: bt)] := by
        simp only [List.foldl_cons]
        rw [hbid r1 (List.mem_cons_self _ _), mapPush_gt_all hm_lt_k]
        rw [foldl_push_bucket bt m [r1] hm_lt_k
          (fun r hr => hbid r (List.mem_cons_of_mem _ hr))]
        rw [List.singleton_append]
      rw [hfirst]
      rw [ih (m ++ [(k, r1 :: bt)])
        (List.pairwise_cons.mp hpw).2
        (fun kb2 hkb2 => hgood kb2 (List.mem_cons_of_mem _ hkb2))
        ?hlt2]
      · rw [List.append_assoc, List.singleton_append]
      · intro kb2 hkb2 ke hke
        rcases List.mem_append.mp hkb2 with hin | hone
        · exact hlt kb2 hin ke (List.mem_cons_of_mem _ hke)
        · have : kb2 = (k, r1 :: bt) := by simpa using hone
          rw [this]
          exact (List.pairwise_cons.mp hpw).1 ke hke

theorem foldl_insertRecord_map (rs : List FastaSequence) :
    ∀ f : FastaFile,
      (rs.foldl insertRecord f).mIdentifierSequenceMap
        = rs.foldl (fun m r => mapPush m r.mIdentifier r)
            f.mIdentifierSequenceMap := by
  induction rs with
  | nil => intro f; rfl
  | cons r rs ih =>
    intro f
    simp only [List.foldl_cons]
    rw [ih (insertRecord f r)]
    rfl

theorem allowDup_true_map (f : FastaFile) :
    (allowDuplicateIdentifiers f true).mIdentifierSequenceMap
      = f.mIdentifierSequenceMap := rfl

theorem parseLines_map (lines : List (List Char)) :
    (parseLines lines true).mIdentifierSequenceMap
      = (finalizeState (readLinesLoop lines (FastaFile.empty true)
          (FastaSequence.mk0 [] []) [])).mIdentifierSequenceMap := rfl

/-- The shape every reachable collection has: map entries strictly sorted
    by key, buckets non-empty, and every record filed under its own
    (normalized, hence printable) identifier with a valid sequence. -/
def WellFormed (f : FastaFile) : Prop :=
  List.Pairwise (fun a b => ltStr a.1 b.1 = true) f.mIdentifierSequenceMap ∧
  ∀ kb ∈ f.mIdentifierSequenceMap, kb.2 ≠ [] ∧
    ∀ r ∈ kb.2, r.mIdentifier = kb.1 ∧
      (∀ c ∈ r.mIdentifier, isPrintable c = true) ∧
      (∀ c ∈ r.mSequence, isValidSequenceCharacter c = true)

theorem parse_bucketLines_foldl (w : Nat) (hw : 1 ≤ w) (r1 : FastaSequence)
    (rs : List FastaSequence) (h1 : GoodRec r1) (hrs : ∀ r ∈ rs, GoodRec r) :
    (parseLines (bucketLines w (r1 :: rs)) true).mIdentifierSequenceMap
      = ((r1 :: rs).foldl insertRecord (FastaFile.empty true)).mIdentifierSequenceMap := by
  obtain ⟨hid_ne, hid_pr, hseq_v⟩ := h1
  have hchunks : ∀ l ∈ chunks w r1.mSequence, headIsGt l = false := fun l hl =>
    headIsGt_false_of_valid (chunksAux_all _ w r1.mSequence hseq_v l hl)
  have hjoin : joinL (chunks w r1.mSequence) = r1.mSequence :=
    joinL_chunksAux w hw _ r1.mSequence (Nat.le_refl _)
  have hbl : bucketLines w (r1 :: rs)
      = ('>' :: r1.mIdentifier) :: (chunks w r1.mSequence ++ bucketLines w rs) := by
    simp [bucketLines, recordLines]
  rw [parseLines_map, hbl,
    readLinesLoop_header_neg _ _ _ _ _ (by simp [headIsGt]) rfl,
    readLinesLoop_no_header _ _ _ _ _ hchunks, List.nil_append, hjoin]
  rw [loop_records w hw rs hrs (FastaFile.empty true)
    ((FastaSequence.mk0 [] []).setIdentifier ('>' :: r1.mIdentifier))
    r1.mSequence
    (by rw [setIdentifier_gt_mIdentifier _ hid_pr]; exact hid_ne)]
  rw [setSequence_setIdentifier_eq _ r1 hid_pr hseq_v, List.foldl_cons]

/-- C2 (amended): for every well-formed, non-empty collection in which
    every identifier is non-empty, and every wrap width at least 1,
    parsing the lines produced by `writeFile` yields exactly the same
    ordered (identifier, sequence) pairs, bucket by bucket — the wrap
    width never alters the reconstructed content.  The counterexample
    shows the claim fails as stated when a record carries the empty
    identifier (the parser's finalize guard discards it); the empty
    collection likewise fails (parsing its empty output manufactures one
    empty record). -/
theorem C2_roundtrip_amended (f : FastaFile) (w : Nat) (hw : 1 ≤ w)
    (hwf : WellFormed f) (hne : f.mIdentifierSequenceMap ≠ [])
    (hids : ∀ kb ∈ f.mIdentifierSequenceMap, kb.1 ≠ ([] : List Char)) :
    flattenPairs (parseLines (writeLines f w) true) = flattenPairs f := by
  have hgoodall : ∀ r ∈ flattenRecords f.mIdentifierSequenceMap, GoodRec r := by
    intro r hr
    obtain ⟨kb, hkb, hrkb⟩ := mem_flattenRecords hr
    obtain ⟨-, hrecs⟩ := hwf.2 kb hkb
    obtain ⟨hid, hpr, hv⟩ := hrecs r hrkb
    exact ⟨by rw [hid]; exact hids kb hkb, hpr, hv⟩
  have hw0 : ¬ w = 0 := by omega
  have hwl : writeLines f w = bucketLines w (flattenRecords f.mIdentifierSequenceMap) := by
    unfold writeLines
    rw [if_neg hw0, entriesLines_eq_flatten]
  have hflat : ∃ r1 rs, flattenRecords f.mIdentifierSequenceMap = r1 :: rs := by
    rcases hmapeq : f.mIdentifierSequenceMap with _ | ⟨⟨k1, b1⟩, es⟩
    · exact absurd hmapeq hne
    · obtain ⟨hb1ne, -⟩ := hwf.2 (k1, b1) (by rw [hmapeq]; exact List.mem_cons_self _ _)
      rcases b1 with _ | ⟨r1, b1t⟩
      · exact absurd rfl hb1ne
      · exact ⟨r1, b1t ++ flattenRecords es, by simp [flattenRecords]⟩
  obtain ⟨r1, rs, hcons⟩ := hflat
  have hmap : (parseLines (writeLines f w) true).mIdentifierSequenceMap
      = f.mIdentifierSequenceMap := by
    rw [hwl, hcons]
    rw [parse_bucketLines_foldl w hw r1 rs
      (hgoodall r1 (by rw [hcons]; exact List.mem_cons_self _ _))
      (fun r hr => hgoodall r (by rw [hcons]; exact List.mem_cons_of_mem _ hr))]
    rw [foldl_insertRecord_map]
    have : (FastaFile.empty true).mIdentifierSequenceMap = [] := rfl
    rw [this, ← hcons]
    rw [foldl_push_entries f.mIdentifierSequenceMap [] hwf.1
      (fun kb hkb => ⟨(hwf.2 kb hkb).1,
        fun r hr => ((hwf.2 kb hkb).2 r hr).1⟩)
      (fun kb hkb => absurd hkb (List.not_mem_nil kb))]
    exact List.nil_append _
  unfold flattenPairs
  rw [hmap]

instance (f : FastaFile) : Decidable (WellFormed f) := by
  unfold WellFormed
  infer_instance

/-- A concrete well-formed two-bucket collection for the C2 witness. -/
def fC2w : FastaFile :=
  { mDuplicateIdentifiersAllowed := true,
    mIdentifiersSet := [],
    mIdentifierSequenceMap :=
      [(['A'], [⟨['A'], ['A', 'C', 'G']⟩, ⟨['A'], ['T']⟩]),
       (['B'], [⟨['B'], ['G', 'G']⟩])] }

/-- C2 amended, witness: the round trip at wrap width 2 on a concrete
    collection with a duplicated identifier, all hypotheses discharged by
    evaluation. -/
theorem C2_roundtrip_amended_instance :
    flattenPairs (parseLines (writeLines fC2w 2) true) = flattenPairs fC2w :=
  C2_roundtrip_amended fC2w 2 (by decide) (by decide) (by decide) (by decide)
